import Mathlib

/-!
# Verification of the Research-AI backend

Shallow embedding of the string-processing and control-flow logic of the
Research-AI repository (`research_analyzer.py`, `api.py`,
`ai_random_ideas_api.py`).  Strings are modelled as `List Char` for the
line-oriented heuristics and as `String` at handler level; external
services (CORE search, PDF download, the generative-text backend) are
modelled as oracle fields of an environment record, and Python
exceptions as `Except`.
-/

namespace ResearchAI

/-! ## Python character classes and primitives

`str.splitlines` splits at the Unicode line boundaries
LF, CR, VT, FF, FS, GS, RS, NEL, LINE SEPARATOR and PARAGRAPH SEPARATOR
(CR LF counting as a single boundary); `str.strip()` removes leading and
trailing whitespace; `str.lower()` is modelled on the ASCII range, which
is the range the keyword heuristics of the source operate on. -/

def isLineBreak (c : Char) : Bool :=
  c.toNat == 10 || c.toNat == 13 || c.toNat == 11 || c.toNat == 12 ||
  c.toNat == 28 || c.toNat == 29 || c.toNat == 30 || c.toNat == 133 ||
  c.toNat == 8232 || c.toNat == 8233

def isPySpace (c : Char) : Bool :=
  c.toNat == 32 || c.toNat == 9 || isLineBreak c

def pyLowerChar (c : Char) : Char :=
  if 65 ≤ c.toNat ∧ c.toNat ≤ 90 then Char.ofNat (c.toNat + 32) else c

def pyLower (s : List Char) : List Char :=
  s.map pyLowerChar

/-- Python substring containment `pat in s`. -/
def containsSub (pat : List Char) : List Char → Bool
  | [] => pat.isEmpty
  | c :: rest => pat.isPrefixOf (c :: rest) || containsSub pat rest

/-- Python `str.splitlines()`. -/
def splitlines : List Char → List (List Char)
  | [] => []
  | '\r' :: '\n' :: rest => [] :: splitlines rest
  | c :: rest =>
    if isLineBreak c then
      [] :: splitlines rest
    else
      match splitlines rest with
      | [] => [[c]]
      | l :: ls => (c :: l) :: ls

/-- Python `"\n".join(...)`. -/
def joinNl : List (List Char) → List Char
  | [] => []
  | [l] => l
  | l :: ls => l ++ '\n' :: joinNl ls

def ltrim (s : List Char) : List Char :=
  s.dropWhile isPySpace

def rtrim (s : List Char) : List Char :=
  List.rdropWhile isPySpace s

/-- Python `str.strip()`. -/
def pyStrip (s : List Char) : List Char :=
  rtrim (ltrim s)

/-! ## `research_analyzer.extract_limitations_scope` (lines 95-111)

```python
lines = []
capture = False
for line in analysis.splitlines():
    if "limitation" in line.lower() or "scope" in line.lower():
        capture = True
    if capture:
        lines.append(line)
        if any(x in line.lower() for x in ["application", "potential",
                                           "relationship", "finding", "conclusion"]):
            break
return "\n".join(lines).strip()
``` -/

def isTrigger (line : List Char) : Bool :=
  containsSub "limitation".data (pyLower line) || containsSub "scope".data (pyLower line)

def stopWords : List (List Char) :=
  ["application".data, "potential".data, "relationship".data, "finding".data,
   "conclusion".data]

def isStop (line : List Char) : Bool :=
  stopWords.any (fun w => containsSub w (pyLower line))

/-- The `for` loop of `extract_limitations_scope`: `capture` is the loop flag,
the returned list is the accumulated `lines`. -/
def scanLines : List (List Char) → Bool → List (List Char)
  | [], _ => []
  | l :: ls, capture =>
    if capture || isTrigger l then
      if isStop l then [l] else l :: scanLines ls true
    else
      scanLines ls false

def extract_limitations_scope (analysis : List Char) : List Char :=
  pyStrip (joinNl (scanLines (splitlines analysis) false))

/-- `extract_limitations_scope` at `String` level. -/
def extractS (analysis : String) : String :=
  ⟨extract_limitations_scope analysis.data⟩

/-- Capture-until-stop-word, the stop line included: what the loop does once
`capture` is set. -/
def specTake : List (List Char) → List (List Char)
  | [] => []
  | l :: ls => if isStop l then [l] else l :: specTake ls

/-- The Limitation Extractor exactly as the specification sentence describes it:
capture begins at the first trigger line, and the stop-word check applies only
to *subsequent* lines, never to the trigger line itself. -/
def claimScan : List (List Char) → List (List Char)
  | [] => []
  | l :: ls => if isTrigger l then l :: specTake ls else claimScan ls

/-- Extractor per the specification sentence (trigger line exempt from the
stop-word check). -/
def extract_claim (analysis : List Char) : List Char :=
  pyStrip (joinNl (claimScan (splitlines analysis)))

/-- Amended description: the stop-word check applies to every captured line,
including the trigger line itself. -/
def amendedScan : List (List Char) → List (List Char)
  | [] => []
  | l :: ls =>
    if isTrigger l then
      if isStop l then [l] else l :: specTake ls
    else
      amendedScan ls

/-- Extractor per the amended description. -/
def extract_amended (analysis : List Char) : List Char :=
  pyStrip (joinNl (amendedScan (splitlines analysis)))

/-! ## Data model and external-service oracles

A `Paper` models the dict produced for one CORE search hit; `none` models an
absent key.  `Env` packs the outcomes of the external calls: the body of the
one CORE request of `search_core_papers` (an `Except` because any network
failure is caught there and turned into `[]`), and the total functions
`extract_text_from_pdf`, `analyze_with_gemini` and `generate_new_ideas`,
each of which catches its own exceptions in the source and therefore always
returns a string. -/

structure Paper where
  title : Option String
  url : Option String
  downloadUrl : Option String
  fullTextUrl : Option String
  fullText : Option String
deriving DecidableEq

structure Env where
  coreSearch : Except Unit (List Paper)
  pdf : String → String
  gemini : String → String → String
  ideasGen : String → String → String

/-- Python truthiness of an optional string: `None` and `""` are falsy. -/
def truthy : Option String → Bool
  | none => false
  | some s => s ≠ ""

/-- Python `a or b` on optional strings: `a` if truthy, else `b`. -/
def pyOrO (a b : Option String) : Option String :=
  if truthy a then a else b

/-- Python slice `l[:n]` (negative `n` counts from the end). -/
def pySlice (n : Int) (l : List α) : List α :=
  if 0 ≤ n then l.take n.toNat else l.take (l.length - (-n).toNat)

/-! ## `research_analyzer.search_core_papers` (lines 43-69)

Raises `ValueError("Search query cannot be empty")` for an empty query
before the network request; any network or HTTP error is caught and turned
into the empty result list. -/

def search_core_papers (env : Env) (query : String) (_limit : Int)
    (_sort_by : String) : Except String (List Paper) :=
  if query = "" then
    Except.error "Search query cannot be empty"
  else
    match env.coreSearch with
    | Except.ok ps => Except.ok ps
    | Except.error _ => Except.ok []

/-- Text acquisition for one paper inside the batch loop (lines 192-197):
inline `fullText` if truthy, else a PDF download when a truthy
`downloadUrl` exists; `""` stands for "no text" (Python `None` or `""`). -/
def resolveText (pdf : String → String) (p : Paper) : String :=
  let t := p.fullText.getD ""
  if t = "" then
    match p.downloadUrl with
    | some u => if u = "" then "" else pdf u
    | none => ""
  else t

/-! ## `research_analyzer.process_papers` (lines 162-224)

The returned transcript is kept as the list `output_lines`; the source
returns `"\n".join(output_lines)`, available as `transcriptOf`.  `gcalls`
records every invocation of `analyze_with_gemini` (its two arguments) and
`icalls` every invocation of `generate_new_ideas` (its first argument), so
that "stage not invoked" is a statement about the embedding itself. -/

structure StepOut where
  lines : List String
  lims : List String
  gcalls : List (String × String)
deriving DecidableEq

structure ProcOut where
  lines : List String
  lims : List String
  gcalls : List (String × String)
  icalls : List String
deriving DecidableEq

def sep50 : String :=
  ⟨List.replicate 50 '='⟩

def noPapersMsg : String :=
  "\nNo papers found for your topic. Try a different search term."

def skipMsg : String :=
  "\nSkipped: Full text not available for analysis"

/-- The three header lines printed for each paper (lines 183-190). -/
def paperHeader (numPapers : Int) (idx : Nat) (p : Paper) : List String :=
  let link := pyOrO p.url (pyOrO p.downloadUrl p.fullTextUrl)
  ["\n" ++ sep50 ++ "\nAnalyzing paper " ++ toString (idx + 1) ++ "/" ++
     toString numPapers,
   "Title: " ++ p.title.getD "Untitled",
   if truthy link then "Link: " ++ link.getD "" else "Link: Not available"]

/-- One iteration of the `for` loop of `process_papers` (lines 182-208). -/
def paperStep (env : Env) (prompt : String) (numPapers : Int) (idx : Nat)
    (p : Paper) : StepOut :=
  let text := resolveText env.pdf p
  if text = "" then
    ⟨paperHeader numPapers idx p ++ [skipMsg], [], []⟩
  else
    let analysis := env.gemini text prompt
    let lim := extractS analysis
    ⟨paperHeader numPapers idx p ++ ["\nAnalysis:\n" ++ analysis],
     if lim = "" then [] else [lim],
     [(text, prompt)]⟩

/-- The whole `for` loop, accumulating output lines, limitation excerpts and
Gemini invocations in source order. -/
def paperLoop (env : Env) (prompt : String) (numPapers : Int) :
    Nat → List Paper → StepOut
  | _, [] => ⟨[], [], []⟩
  | idx, p :: ps =>
    let s := paperStep env prompt numPapers idx p
    let r := paperLoop env prompt numPapers (idx + 1) ps
    ⟨s.lines ++ r.lines, s.lims ++ r.lims, s.gcalls ++ r.gcalls⟩

/-- The block after the loop (lines 211-219): idea generation when at least
one limitation excerpt was collected.  Returns the extra output lines and
the `generate_new_ideas` invocations. -/
def ideaTail (env : Env) (query : String) (numIdeas wordLimit : Int)
    (lims : List String) : List String × List String :=
  if lims = [] then
    (["\nCould not extract limitations/scope from the analyzed papers. No new ideas generated."],
     [])
  else
    let allLims := String.intercalate "\n\n" lims
    (["\n" ++ sep50,
      "Generating " ++ toString numIdeas ++
        " new research ideas based on identified gaps (each >100 and <= " ++
        toString wordLimit ++ " words)...",
      "\nSuggested Research Ideas:\n",
      env.ideasGen allLims query],
     [allLims])

def process_papers (env : Env) (query analysis_prompt sort_by : String)
    (num_papers num_ideas word_limit : Int) : ProcOut :=
  match search_core_papers env query num_papers sort_by with
  | Except.error e => ⟨["\nError processing papers: " ++ e], [], [], []⟩
  | Except.ok papers =>
    if papers = [] then ⟨[noPapersMsg], [], [], []⟩
    else
      let found := "\nFound " ++ toString papers.length ++
        " relevant papers. Analyzing top " ++ toString num_papers ++
        " (sorted by " ++ sort_by ++ ")..."
      let L := paperLoop env analysis_prompt num_papers 0 (pySlice num_papers papers)
      let t := ideaTail env query num_ideas word_limit L.lims
      ⟨found :: (L.lines ++ t.1), L.lims, L.gcalls, t.2⟩

/-- `"\n".join(output_lines)`, the string `process_papers` returns. -/
def transcriptOf (o : ProcOut) : String :=
  String.intercalate "\n" o.lines

/-! ## `api.analyze_papers` (api.py lines 102-137)

The handler reads `topic` (default `""`) and `num_papers` (default 3) from
the JSON body and calls `search_core_papers` with **no** `try`/`except`, so
an exception from the search propagates to the HTTP layer; this is modelled
by returning the search's `Except.error` unchanged. -/

structure PaperOut where
  title : String
  link : Option String
  analysis : String
  lim_scope : String
deriving DecidableEq

structure APBody where
  topic : Option String
  num_papers : Option Int
deriving DecidableEq

def apAnalysisPrompt : String :=
  "Please provide a detailed analysis of this research paper covering:\n    1. Main research question/hypothesis\n    2. Methodology used\n    3. Key findings\n    4. Limitations\n    5. Potential applications\n    6. Relationship to other work in the field"

def analyze_papers (env : Env) (body : APBody) : Except String (List PaperOut) :=
  let topic := (body.topic.getD "")
  let num_papers := body.num_papers.getD 3
  match search_core_papers env topic num_papers "relevance" with
  | Except.error e => Except.error e
  | Except.ok papers =>
    Except.ok ((pySlice num_papers papers).map fun p =>
      let title := p.title.getD "Untitled"
      let link := pyOrO p.url (pyOrO p.downloadUrl p.fullTextUrl)
      let text := resolveText env.pdf p
      if text = "" then
        ⟨title, link, "Skipped: Full text not available for analysis", ""⟩
      else
        let analysis := env.gemini text apAnalysisPrompt
        ⟨title, link, analysis, extractS analysis⟩)

/-! ## `api.generate_ideas` idea-list parsing (api.py lines 139-157)

Hand-compiled embedding of
`re.findall(r"\d+\.\s(.+?)(?=\n\d+\.|\n*$)", ideas_text, re.DOTALL)` and
`re.findall(r"[-*]\s(.+)", ideas_text)` together with the handler's
numbered-before-bulleted dispatch.  `\d` is the ASCII digit class and `\s`
the whitespace class (`isPySpace`); without `re.MULTILINE`, `$` matches
only at the end of the text or before a final newline, so the lookahead
alternative `\n*$` succeeds exactly when the remaining text is all
newlines. -/

/-- Does the remaining text start with `\d+\.` (used by the lookahead)? -/
def lookNumDot (r : List Char) : Bool :=
  !(r.takeWhile Char.isDigit).isEmpty &&
    ((r.dropWhile Char.isDigit).head? == some '.')

/-- The zero-width lookahead `(?=\n\d+\.|\n*$)`. -/
def lookaheadOk (rest : List Char) : Bool :=
  (match rest with
   | '\n' :: r => lookNumDot r
   | _ => false) ||
  rest.all (fun c => c == '\n')

/-- Lazy `(.+?)` followed by the lookahead: the shortest non-empty prefix
after which the lookahead holds, together with the remaining text. -/
def findContent : List Char → Option (List Char × List Char)
  | [] => none
  | c :: rest =>
    if lookaheadOk rest then some ([c], rest)
    else
      match findContent rest with
      | some (g, rem) => some (c :: g, rem)
      | none => none

/-- One anchored attempt of `\d+\.\s(.+?)(?=\n\d+\.|\n*$)`:
digits, a dot, one whitespace character, then the lazy content. -/
def tryNumMatch (s : List Char) : Option (List Char × List Char) :=
  let ds := s.takeWhile Char.isDigit
  if ds.isEmpty then none
  else
    match s.drop ds.length with
    | '.' :: c :: r2 =>
      if isPySpace c then
        match findContent r2 with
        | some (g, rem) => some (g, rem)
        | none => none
      else none
    | _ => none

/-- `re.findall` scanning loop for the numbered pattern: try a match at the
current position, otherwise advance one character.  Each successful match
consumes at least one character, so `fuel := s.length` never runs out. -/
def findallNumberedFuel : Nat → List Char → List (List Char)
  | 0, _ => []
  | fuel + 1, s =>
    match tryNumMatch s with
    | some (g, rem) => g :: findallNumberedFuel fuel rem
    | none =>
      match s with
      | [] => []
      | _ :: rest => findallNumberedFuel fuel rest

def findallNumbered (s : List Char) : List (List Char) :=
  findallNumberedFuel s.length s

/-- One anchored attempt of `[-*]\s(.+)`: a dash or star, one whitespace
character, then the greedy rest of the line (`.` excludes `\n`). -/
def tryBulletMatch : List Char → Option (List Char × List Char)
  | b :: c :: rest =>
    if (b == '-' || b == '*') && isPySpace c then
      let g := rest.takeWhile (fun x => x ≠ '\n')
      if g.isEmpty then none else some (g, rest.drop g.length)
    else none
  | _ => none

def findallBulletsFuel : Nat → List Char → List (List Char)
  | 0, _ => []
  | fuel + 1, s =>
    match tryBulletMatch s with
    | some (g, rem) => g :: findallBulletsFuel fuel rem
    | none =>
      match s with
      | [] => []
      | _ :: rest => findallBulletsFuel fuel rest

def findallBullets (s : List Char) : List (List Char) :=
  findallBulletsFuel s.length s

/-- The parsing block of the `/generate_ideas` handler: numbered items when
any exist, otherwise bulleted items; every item is `strip()`ped. -/
def parse_ideas (ideas_text : List Char) : List (List Char) :=
  let numbered := findallNumbered ideas_text
  if numbered.isEmpty then
    (findallBullets ideas_text).map pyStrip
  else
    numbered.map pyStrip

/-- The `/generate_ideas` handler: `generate_new_ideas` is the oracle `gen`
(it catches its own exceptions and always returns a string). -/
def generate_ideas (gen : String → String → Int → Int → String)
    (limitations topic : Option String) (num_ideas word_limit : Option Int) :
    List String :=
  let ideas_text := gen (limitations.getD "") (topic.getD "")
    (num_ideas.getD 3) (word_limit.getD 150)
  (parse_ideas ideas_text.data).map fun l => ⟨l⟩

/-! ## `/random_ideas` (ai_random_ideas_api.py lines 143-161; the ideas
logic of api.py lines 191-293 is identical)

`fetch_trending_papers_from_core` returns `[]` without a CORE key and on
any network error; `generate_gaps_with_gemini` is an oracle (its outcome
depends on the generative backend; it returns `[]` without a Gemini key,
and the handler also guards on the key itself).  `random.sample(pop, k)`
is modelled from its documented semantics: `k` pairwise-distinct positions
chosen without replacement, driven by an arbitrary index stream `rng`; it
raises `ValueError` when `k` is negative or exceeds the population size. -/

structure TrendPaper where
  title : String
  authors : List String
  abstract : String
  url : String
deriving DecidableEq

structure RandEnv where
  coreNet : Except Unit (List TrendPaper)
  gaps : List TrendPaper → Int → List String

def fetch_trending_papers_from_core (coreKey : String)
    (net : Except Unit (List TrendPaper)) : List TrendPaper :=
  if coreKey = "" then []
  else
    match net with
    | Except.ok ps => ps
    | Except.error _ => []

/-- Selection without replacement: at each step remove the element at the
`rng`-chosen index.  Models `random.sample`'s guarantee of pairwise-distinct
selections. -/
def sampleAux (rng : Nat → Nat) : Nat → List α → Nat → List α
  | 0, _, _ => []
  | _ + 1, [], _ => []
  | k + 1, p :: ps, step =>
    let i := rng step % (p :: ps).length
    (p :: ps).get ⟨i, Nat.mod_lt _ (Nat.succ_pos ps.length)⟩ ::
      sampleAux rng k ((p :: ps).eraseIdx i) (step + 1)

/-- Modelled from the spec and the Python documentation of `random.sample`
(the function itself is standard-library code outside this repository). -/
def randomSample (rng : Nat → Nat) (pop : List α) (k : Int) :
    Except Unit (List α) :=
  if k < 0 ∨ (pop.length : Int) < k then Except.error ()
  else Except.ok (sampleAux rng k.toNat pop 0)

def fallback_ideas : List String :=
  ["Explainable AI for medical imaging diagnosis",
   "Quantum algorithms for large-scale optimization",
   "Privacy-preserving federated learning in healthcare",
   "Bias detection in language models for legal documents",
   "Energy-efficient deep learning for edge devices"]

/-- The `/random_ideas` handler: `count` from the body (default 5), trending
papers, Gemini gap generation when a key and papers exist, otherwise the
`random.sample` fallback.  An uncaught `ValueError` from `random.sample`
surfaces as `Except.error`. -/
def random_ideas (env : RandEnv) (geminiKey coreKey : String)
    (rng : Nat → Nat) (count : Int) : Except Unit (List String) :=
  let papers := fetch_trending_papers_from_core coreKey env.coreNet
  let ideas := if geminiKey ≠ "" ∧ papers ≠ [] then env.gaps papers count else []
  if ideas = [] then
    randomSample rng fallback_ideas (min count 5)
  else
    Except.ok ideas

/-! ## Auxiliary definitions for the verification -/

/-- All characters of the line are Python whitespace. -/
def lineWS (l : List Char) : Bool :=
  l.all isPySpace

/-- Right-trim a list of lines: trailing all-whitespace lines are removed and
the last remaining line is right-trimmed (mirrors what `str.strip()` does to
the tail of a newline-join). -/
def rtrimLines : List (List Char) → List (List Char)
  | [] => []
  | l :: ls =>
    match rtrimLines ls with
    | [] => if lineWS l then [] else [rtrim l]
    | l2 :: ls2 => l :: l2 :: ls2

/-- Shape invariant of the capture loop's output: every line except possibly
the last one is free of stop words. -/
inductive Captured : List (List Char) → Prop
  | nil : Captured []
  | single (l : List Char) : Captured [l]
  | cons (l : List Char) (t : List (List Char)) (h : isStop l = false)
      (ht : Captured t) (hne : t ≠ []) : Captured (l :: t)

/-- A fully degraded environment: the CORE request yields no results and
every oracle returns the empty string. -/
def envA : Env :=
  ⟨Except.ok [], fun _ => "", fun _ _ => "", fun _ _ => ""⟩

/-- A paper whose full text is the empty string and which has no download
URL. -/
def pX : Paper :=
  ⟨some "T1", none, none, none, some ""⟩

/-- An environment whose CORE request returns exactly `[pX]`. -/
def envB : Env :=
  ⟨Except.ok [pX], fun _ => "", fun _ _ => "", fun _ _ => ""⟩

/-- A degraded `/random_ideas` environment. -/
def renvA : RandEnv :=
  ⟨Except.ok [], fun _ _ => []⟩

/-! ## Lemmas: character classes -/

theorem toNat_ofNat_valid {n : Nat} (h : n < 55296) : (Char.ofNat n).toNat = n := by
  have hv : n.isValidChar := Or.inl h
  rw [Char.ofNat, dif_pos hv]
  simp [Char.ofNatAux, Char.toNat, UInt32.ofNat', UInt32.toNat]

theorem isPySpace_eq_false_of_range {c : Char} (h1 : 65 ≤ c.toNat)
    (h2 : c.toNat ≤ 122) : isPySpace c = false := by
  simp only [isPySpace, isLineBreak, Bool.or_eq_false_iff, beq_eq_false_iff_ne, ne_eq]
  omega

theorem isPySpace_pyLowerChar (c : Char) : isPySpace (pyLowerChar c) = isPySpace c := by
  by_cases h : 65 ≤ c.toNat ∧ c.toNat ≤ 90
  · have ht : (Char.ofNat (c.toNat + 32)).toNat = c.toNat + 32 :=
      toNat_ofNat_valid (by omega)
    rw [pyLowerChar, if_pos h,
      isPySpace_eq_false_of_range (c := Char.ofNat (c.toNat + 32)) (by omega) (by omega),
      isPySpace_eq_false_of_range (by omega) (by omega)]
  · rw [pyLowerChar, if_neg h]

theorem pyLower_append (x y : List Char) :
    pyLower (x ++ y) = pyLower x ++ pyLower y := by
  simp [pyLower]

theorem isPySpace_comp_pyLowerChar : (fun c => isPySpace (pyLowerChar c)) = isPySpace :=
  funext isPySpace_pyLowerChar

theorem ltrim_pyLower (s : List Char) : ltrim (pyLower s) = pyLower (ltrim s) := by
  unfold ltrim pyLower
  rw [List.dropWhile_map]
  rw [show (isPySpace ∘ pyLowerChar) = isPySpace from funext isPySpace_pyLowerChar]

theorem pyLower_reverse (s : List Char) : pyLower s.reverse = (pyLower s).reverse := by
  simp [pyLower]

theorem rtrim_pyLower (s : List Char) : rtrim (pyLower s) = pyLower (rtrim s) := by
  unfold rtrim List.rdropWhile
  rw [← pyLower_reverse]
  rw [show List.dropWhile isPySpace (pyLower s.reverse) = ltrim (pyLower s.reverse) from rfl,
    ltrim_pyLower, ← pyLower_reverse]
  rfl

/-! ## Lemmas: substring containment -/

theorem containsSub_iff (pat : List Char) :
    ∀ s : List Char, containsSub pat s = true ↔ pat <:+: s := by
  intro s
  induction s with
  | nil =>
    simp only [containsSub, List.isEmpty_iff, List.infix_nil]
  | cons c rest ih =>
    simp only [containsSub, Bool.or_eq_true, List.isPrefixOf_iff_prefix, ih]
    constructor
    · rintro (h | h)
      · exact h.isInfix
      · exact List.infix_cons h
    · rintro ⟨x, y, hxy⟩
      cases x with
      | nil =>
        exact Or.inl ⟨y, by simpa using hxy⟩
      | cons d x2 =>
        refine Or.inr ⟨x2, y, ?_⟩
        have := hxy
        simp only [List.cons_append] at this
        exact (List.cons.injEq _ _ _ _).mp this |>.2

theorem containsSub_of_within {pat u v : List Char} (h : containsSub pat u = true)
    (huv : u <:+: v) : containsSub pat v = true :=
  (containsSub_iff pat v).mpr (((containsSub_iff pat u).mp h).trans huv)

theorem infix_dropWhile_of_head {p : Char → Bool} {pat w : List Char}
    (hne : pat ≠ []) (hh : ∀ c, pat.head? = some c → p c = false)
    (h : pat <:+: w) : pat <:+: List.dropWhile p w := by
  obtain ⟨x, y, hxy⟩ := h
  subst hxy
  rw [List.append_assoc, List.dropWhile_append]
  by_cases hx : (List.dropWhile p x).isEmpty
  · rw [if_pos hx]
    cases pat with
    | nil => exact absurd rfl hne
    | cons c cs =>
      rw [List.cons_append, List.dropWhile_cons, hh c rfl]
      exact ⟨[], y, by simp⟩
  · rw [if_neg hx]
    exact ⟨List.dropWhile p x, y, by rw [List.append_assoc]⟩

theorem infix_rdropWhile_of_last {p : Char → Bool} {pat w : List Char}
    (hne : pat ≠ []) (hl : ∀ c, pat.getLast? = some c → p c = false)
    (h : pat <:+: w) : pat <:+: List.rdropWhile p w := by
  rw [List.rdropWhile, ← List.reverse_reverse pat]
  rw [ List.reverse_infix]
  refine infix_dropWhile_of_head ?_ ?_ ?_
  · simpa using hne
  · intro c hc
    rw [List.head?_reverse] at hc
    exact hl c hc
  · rw [← List.reverse_infix] at h
    simpa using h

/-! ## Lemmas: triggers and stop words under trimming -/

theorem isTrigger_mono {x y : List Char} (hxy : x <:+: y)
    (h : isTrigger x = true) : isTrigger y = true := by
  unfold isTrigger at h ⊢
  rcases Bool.or_eq_true _ _ |>.mp h with h1 | h1
  · exact Bool.or_eq_true _ _ |>.mpr (Or.inl (containsSub_of_within h1 (hxy.map pyLowerChar)))
  · exact Bool.or_eq_true _ _ |>.mpr (Or.inr (containsSub_of_within h1 (hxy.map pyLowerChar)))

theorem isStop_mono {x y : List Char} (hxy : x <:+: y)
    (h : isStop x = true) : isStop y = true := by
  unfold isStop at h ⊢
  rw [List.any_eq_true] at h ⊢
  obtain ⟨w, hw, hc⟩ := h
  exact ⟨w, hw, containsSub_of_within hc (hxy.map pyLowerChar)⟩

theorem ltrim_within (s : List Char) : ltrim s <:+: s :=
  (List.dropWhile_suffix isPySpace).isInfix

theorem rtrim_within (s : List Char) : rtrim s <:+: s :=
  ( List.rdropWhile_prefix isPySpace s).isInfix

theorem isStop_ltrim_false {l : List Char} (h : isStop l = false) :
    isStop (ltrim l) = false := by
  by_contra hc
  rw [Bool.not_eq_false] at hc
  rw [isStop_mono (ltrim_within l) hc] at h
  exact Bool.noConfusion h

theorem isTrigger_ltrim {l : List Char} (h : isTrigger l = true) :
    isTrigger (ltrim l) = true := by
  unfold isTrigger at h ⊢
  rw [Bool.or_eq_true] at h ⊢
  have key : ∀ pat : List Char, pat ≠ [] →
      (∀ c, pat.head? = some c → isPySpace c = false) →
      containsSub pat (pyLower l) = true → containsSub pat (pyLower (ltrim l)) = true := by
    intro pat hne hh hc
    rw [← ltrim_pyLower]
    exact (containsSub_iff pat _).mpr
      (infix_dropWhile_of_head hne hh ((containsSub_iff pat _).mp hc))
  rcases h with h1 | h1
  · exact Or.inl (key _ (by decide) (by decide) h1)
  · exact Or.inr (key _ (by decide) (by decide) h1)

theorem isTrigger_rtrim {l : List Char} (h : isTrigger l = true) :
    isTrigger (rtrim l) = true := by
  unfold isTrigger at h ⊢
  rw [Bool.or_eq_true] at h ⊢
  have key : ∀ pat : List Char, pat ≠ [] →
      (∀ c, pat.getLast? = some c → isPySpace c = false) →
      containsSub pat (pyLower l) = true → containsSub pat (pyLower (rtrim l)) = true := by
    intro pat hne hl hc
    rw [← rtrim_pyLower]
    exact (containsSub_iff pat _).mpr
      (infix_rdropWhile_of_last hne hl ((containsSub_iff pat _).mp hc))
  rcases h with h1 | h1
  · exact Or.inl (key _ (by decide) (by decide) h1)
  · exact Or.inr (key _ (by decide) (by decide) h1)

theorem isTrigger_not_all_ws {l : List Char} (h : ∀ c ∈ l, isPySpace c = true) :
    isTrigger l = false := by
  by_contra hc
  rw [Bool.not_eq_false] at hc
  unfold isTrigger at hc
  rw [Bool.or_eq_true] at hc
  have key : ∀ pat : List Char, ∀ c, c ∈ pat → isPySpace c = false →
      containsSub pat (pyLower l) = true → False := by
    intro pat c hcp hcf hcs
    have hmem : c ∈ pyLower l := ((containsSub_iff pat _).mp hcs).subset hcp
    obtain ⟨d, hd, hdc⟩ := List.mem_map.mp hmem
    have : isPySpace c = isPySpace d := by
      rw [← hdc]; exact isPySpace_pyLowerChar d
    rw [h d hd] at this
    rw [this] at hcf
    exact Bool.noConfusion hcf
  rcases hc with h1 | h1
  · exact key _ 'l' (by decide) (by decide) h1
  · exact key _ 's' (by decide) (by decide) h1

/-! ## Lemmas: `splitlines` -/

theorem splitlines_nl (s : List Char) : splitlines ('\n' :: s) = [] :: splitlines s := by
  cases s with
  | nil => rfl
  | cons a t => rfl

theorem splitlines_cons_notbreak {c : Char} (hc : isLineBreak c = false) (s : List Char) :
    splitlines (c :: s) = (match splitlines s with
      | [] => [[c]]
      | l :: ls => (c :: l) :: ls) := by
  rw [splitlines.eq_def]
  split
  · rename_i heq
    simp at heq
  · rename_i heq
    have h1 : c = '\r' := (List.cons.injEq .. |>.mp heq).1
    rw [h1] at hc
    simp [isLineBreak] at hc
  · rename_i hno heq
    obtain ⟨h1, h2⟩ := List.cons.injEq .. |>.mp heq
    subst h1
    subst h2
    rw [if_neg (by simp [hc])]

theorem splitlines_break_cons {c : Char} {rest : List Char}
    (hc : isLineBreak c = true)
    (hnot : ¬(c = '\r' ∧ ∃ r2, rest = '\n' :: r2)) :
    splitlines (c :: rest) = [] :: splitlines rest := by
  rw [splitlines.eq_def]
  split
  · rename_i heq
    simp at heq
  · rename_i heq
    obtain ⟨h1, h2⟩ := List.cons.injEq .. |>.mp heq
    exact absurd ⟨h1, _, h2⟩ hnot
  · rename_i hno heq
    obtain ⟨h1, h2⟩ := List.cons.injEq .. |>.mp heq
    subst h1
    subst h2
    rw [if_pos hc]

theorem splitlines_ne_nil {s : List Char} (h : s ≠ []) : splitlines s ≠ [] := by
  cases s with
  | nil => exact absurd rfl h
  | cons c rest =>
    rw [splitlines.eq_def]
    split
    · rename_i heq
      simp at heq
    · exact List.cons_ne_nil _ _
    · split
      · exact List.cons_ne_nil _ _
      · split
        · exact List.cons_ne_nil _ _
        · exact List.cons_ne_nil _ _

theorem splitlines_no_break (s : List Char) :
    ∀ l ∈ splitlines s, ∀ c ∈ l, isLineBreak c = false := by
  induction s using splitlines.induct with
  | case1 =>
    intro l hl
    simp [splitlines] at hl
  | case2 rest ih =>
    intro l hl c hc
    rw [show splitlines ('\r' :: '\n' :: rest) = [] :: splitlines rest from rfl] at hl
    rcases List.mem_cons.mp hl with rfl | h
    · simp at hc
    · exact ih l h c hc
  | case3 c rest hno hbrk ih =>
    intro l hl d hd
    rw [splitlines_break_cons hbrk (by
      rintro ⟨rfl, r2, rfl⟩
      exact hno r2 rfl rfl)] at hl
    rcases List.mem_cons.mp hl with rfl | h
    · simp at hd
    · exact ih l h d hd
  | case4 c rest hno hbrk hsp ih =>
    intro l hl d hd
    rw [splitlines_cons_notbreak (Bool.not_eq_true _ |>.mp hbrk) rest, hsp] at hl
    rcases List.mem_cons.mp hl with rfl | h
    · rcases List.mem_singleton.mp hd with rfl
      exact Bool.not_eq_true _ |>.mp hbrk
    · simp at h
  | case5 c rest hno hbrk l0 ls0 hsp ih =>
    intro l hl d hd
    rw [splitlines_cons_notbreak (Bool.not_eq_true _ |>.mp hbrk) rest, hsp] at hl
    rcases List.mem_cons.mp hl with rfl | h
    · rcases List.mem_cons.mp hd with rfl | hdl
      · exact Bool.not_eq_true _ |>.mp hbrk
      · exact ih l0 (hsp ▸ List.mem_cons_self ..) d hdl
    · exact ih l (hsp ▸ List.mem_cons_of_mem _ h) d hd

theorem splitlines_append_nl (l s : List Char)
    (hl : ∀ c ∈ l, isLineBreak c = false) :
    splitlines (l ++ '\n' :: s) = l :: splitlines s := by
  induction l with
  | nil => simpa using splitlines_nl s
  | cons c l2 ih =>
    have hc : isLineBreak c = false := hl c (List.mem_cons_self ..)
    rw [List.cons_append, splitlines_cons_notbreak hc,
      ih (fun d hd => hl d (List.mem_cons_of_mem _ hd))]

theorem splitlines_breakfree (l : List Char)
    (hl : ∀ c ∈ l, isLineBreak c = false) (hne : l ≠ []) :
    splitlines l = [l] := by
  induction l with
  | nil => exact absurd rfl hne
  | cons c l2 ih =>
    have hc : isLineBreak c = false := hl c (List.mem_cons_self ..)
    rw [splitlines_cons_notbreak hc]
    by_cases h2 : l2 = []
    · subst h2
      rfl
    · rw [ih (fun d hd => hl d (List.mem_cons_of_mem _ hd)) h2]

/-! ## Lemmas: `joinNl`, trimming, and their interaction -/

theorem joinNl_cons {ls : List (List Char)} (l : List Char) (h : ls ≠ []) :
    joinNl (l :: ls) = l ++ '\n' :: joinNl ls := by
  cases ls with
  | nil => exact absurd rfl h
  | cons a t => rfl

theorem joinNl_cons_head (c : Char) (l : List Char) (ls : List (List Char)) :
    joinNl ((c :: l) :: ls) = c :: joinNl (l :: ls) := by
  cases ls with
  | nil => rfl
  | cons a t => rfl

theorem joinNl_splitlines (s : List Char)
    (h1 : ∀ c ∈ s, isLineBreak c = true → c = '\n')
    (h2 : s.getLast? ≠ some '\n') : joinNl (splitlines s) = s := by
  induction s with
  | nil => rfl
  | cons c rest ih =>
    by_cases hrest : rest = []
    · subst hrest
      have hcn : c ≠ '\n' := by
        intro h
        exact h2 (by rw [h]; rfl)
      have hb : isLineBreak c = false := by
        by_contra hb
        rw [Bool.not_eq_false] at hb
        exact hcn (h1 c (List.mem_cons_self ..) hb)
      rw [splitlines_breakfree [c] (by simpa using hb) (by simp)]
      rfl
    · have h2r : rest.getLast? ≠ some '\n' := by
        cases rest with
        | nil => exact absurd rfl hrest
        | cons a t => rw [List.getLast?_cons_cons] at h2; exact h2
      have ihr := ih (fun d hd hdb => h1 d (List.mem_cons_of_mem _ hd) hdb) h2r
      by_cases hb : isLineBreak c = true
      · have hcn : c = '\n' := h1 c (List.mem_cons_self ..) hb
        subst hcn
        rw [splitlines_nl, joinNl_cons [] (splitlines_ne_nil hrest), ihr]
        rfl
      · rw [splitlines_cons_notbreak (Bool.not_eq_true _ |>.mp hb) rest]
        cases hsp : splitlines rest with
        | nil => exact absurd hsp (splitlines_ne_nil hrest)
        | cons l ls =>
          rw [hsp] at ihr
          rw [joinNl_cons_head, ihr]

theorem splitlines_joinNl (T : List (List Char))
    (hbf : ∀ l ∈ T, ∀ c ∈ l, isLineBreak c = false)
    (hlast : ∀ z, T.getLast? = some z → z ≠ []) :
    splitlines (joinNl T) = T := by
  induction T with
  | nil => rfl
  | cons l T2 ih =>
    cases T2 with
    | nil =>
      have hne : l ≠ [] := hlast l rfl
      exact splitlines_breakfree l (hbf l (List.mem_cons_self ..)) hne
    | cons m T3 =>
      rw [joinNl_cons l (by simp),
        splitlines_append_nl l _ (hbf l (List.mem_cons_self ..)),
        ih (fun x hx => hbf x (List.mem_cons_of_mem _ hx))
          (fun z hz => hlast z (by rw [List.getLast?_cons_cons]; exact hz))]

theorem ltrim_eq_nil_iff {s : List Char} :
    ltrim s = [] ↔ ∀ c ∈ s, isPySpace c = true := by
  unfold ltrim
  exact List.dropWhile_eq_nil_iff

theorem rtrim_eq_nil_iff {s : List Char} :
    rtrim s = [] ↔ ∀ c ∈ s, isPySpace c = true := by
  unfold rtrim
  exact List.rdropWhile_eq_nil_iff

theorem ltrim_append_not_ws (x y : List Char)
    (h : ¬ ∀ c ∈ x, isPySpace c = true) :
    ltrim (x ++ y) = ltrim x ++ y := by
  unfold ltrim
  rw [List.dropWhile_append, if_neg]
  simp only [List.isEmpty_iff]
  intro hx
  exact h (List.dropWhile_eq_nil_iff.mp hx)

theorem rtrim_append (x y : List Char) :
    rtrim (x ++ y) = if rtrim y = [] then rtrim x else x ++ rtrim y := by
  unfold rtrim List.rdropWhile
  rw [List.reverse_append, List.dropWhile_append]
  by_cases h : (List.dropWhile isPySpace y.reverse).isEmpty
  · rw [if_pos h, if_pos]
    rw [List.isEmpty_iff.mp h]
    rfl
  · rw [if_neg h, if_neg]
    · rw [List.reverse_append, List.reverse_reverse]
    · simp only [List.isEmpty_iff] at h
      intro hcon
      exact h (by rw [show List.dropWhile isPySpace y.reverse = (List.dropWhile isPySpace y.reverse).reverse.reverse from (List.reverse_reverse _).symm, hcon]; rfl)

theorem lineWS_false_iff {l : List Char} :
    lineWS l = false ↔ ¬ ∀ c ∈ l, isPySpace c = true := by
  unfold lineWS
  rw [Bool.eq_false_iff]
  constructor
  · intro h hall
    exact h (List.all_eq_true.mpr hall)
  · intro h hall
    exact h (List.all_eq_true.mp hall)

theorem lineWS_true_iff {l : List Char} :
    lineWS l = true ↔ ∀ c ∈ l, isPySpace c = true := by
  unfold lineWS
  exact List.all_eq_true

theorem rtrimLines_cons (l : List Char) (ls : List (List Char)) :
    rtrimLines (l :: ls) = (match rtrimLines ls with
      | [] => if lineWS l then [] else [rtrim l]
      | l2 :: ls2 => l :: l2 :: ls2) := rfl

theorem rtrimLines_eq_nil_iff : ∀ {S : List (List Char)},
    rtrimLines S = [] ↔ ∀ l ∈ S, lineWS l = true := by
  intro S
  induction S with
  | nil => simp [rtrimLines]
  | cons l ls ih =>
    rw [rtrimLines_cons]
    cases h : rtrimLines ls with
    | nil =>
      have hall : ∀ x ∈ ls, lineWS x = true := ih.mp h
      by_cases hws : lineWS l = true
      · rw [if_pos hws]
        simp only [true_iff, List.mem_cons]
        intro x hx
        rcases hx with rfl | hx
        · exact hws
        · exact hall x hx
      · rw [if_neg hws]
        simp only [List.cons_ne_nil, false_iff]
        intro hcon
        exact hws (hcon l (List.mem_cons_self ..))
    | cons l2 ls2 =>
      simp only [List.cons_ne_nil, false_iff]
      intro hcon
      have : rtrimLines ls = [] := ih.mpr (fun x hx => hcon x (List.mem_cons_of_mem _ hx))
      rw [this] at h
      exact List.noConfusion h

theorem rtrimLines_last_ne_nil : ∀ {S : List (List Char)} {z : List Char},
    (rtrimLines S).getLast? = some z → z ≠ [] := by
  intro S
  induction S with
  | nil =>
    intro z hz
    simp [rtrimLines] at hz
  | cons l ls ih =>
    intro z hz
    rw [rtrimLines_cons] at hz
    revert hz
    cases h : rtrimLines ls with
    | nil =>
      by_cases hws : lineWS l = true
      · rw [if_pos hws]
        intro hz
        simp at hz
      · rw [if_neg hws]
        intro hz
        rw [List.getLast?_singleton] at hz
        obtain rfl := Option.some.injEq .. |>.mp hz
        intro hcon
        exact hws (lineWS_true_iff.mpr (rtrim_eq_nil_iff.mp hcon))
    | cons l2 ls2 =>
      intro hz
      rw [List.getLast?_cons_cons] at hz
      exact ih (h ▸ hz)

theorem rtrimLines_mem : ∀ {S : List (List Char)} {y : List Char},
    y ∈ rtrimLines S → ∃ x ∈ S, y = x ∨ y = rtrim x := by
  intro S
  induction S with
  | nil =>
    intro y hy
    simp [rtrimLines] at hy
  | cons l ls ih =>
    intro y hy
    rw [rtrimLines_cons] at hy
    revert hy
    cases h : rtrimLines ls with
    | nil =>
      by_cases hws : lineWS l = true
      · rw [if_pos hws]
        intro hy
        simp at hy
      · rw [if_neg hws]
        intro hy
        rcases List.mem_singleton.mp hy with rfl
        exact ⟨l, List.mem_cons_self .., Or.inr rfl⟩
    | cons l2 ls2 =>
      intro hy
      rcases List.mem_cons.mp hy with rfl | hy2
      · exact ⟨y, List.mem_cons_self .., Or.inl rfl⟩
      · obtain ⟨x, hx, hxy⟩ := ih (h ▸ hy2)
        exact ⟨x, List.mem_cons_of_mem _ hx, hxy⟩

theorem captured_rtrimLines : ∀ {X : List (List Char)}, Captured X →
    Captured (rtrimLines X) := by
  intro X hX
  induction hX with
  | nil => exact Captured.nil
  | single l =>
    rw [rtrimLines_cons]
    cases h : rtrimLines ([] : List (List Char)) with
    | nil =>
      by_cases hws : lineWS l = true
      · rw [if_pos hws]
        exact Captured.nil
      · rw [if_neg hws]
        exact Captured.single _
    | cons l2 ls2 => exact List.noConfusion h
  | cons l t hstop ht htne ih =>
    rw [rtrimLines_cons]
    cases h : rtrimLines t with
    | nil =>
      by_cases hws : lineWS l = true
      · rw [if_pos hws]
        exact Captured.nil
      · rw [if_neg hws]
        exact Captured.single _
    | cons l2 ls2 =>
      exact Captured.cons l (l2 :: ls2) hstop (h ▸ ih) (List.cons_ne_nil _ _)

theorem joinNl_ne_nil (T : List (List Char)) (hT : T ≠ [])
    (hlast : ∀ z, T.getLast? = some z → z ≠ []) : joinNl T ≠ [] := by
  cases T with
  | nil => exact absurd rfl hT
  | cons l ls =>
    cases ls with
    | nil => exact hlast l rfl
    | cons m ls2 =>
      rw [joinNl_cons l (by simp)]
      simp

theorem rtrim_nl_cons (z : List Char) :
    rtrim ('\n' :: z) = (if rtrim z = [] then [] else '\n' :: rtrim z) := by
  rw [show ('\n' :: z) = ['\n'] ++ z from rfl, rtrim_append]
  by_cases h : rtrim z = []
  · rw [if_pos h, if_pos h]
    decide
  · rw [if_neg h, if_neg h]
    rfl

theorem rtrim_joinNl : ∀ (S : List (List Char)),
    rtrim (joinNl S) = joinNl (rtrimLines S) := by
  intro S
  induction S with
  | nil => decide
  | cons l ls ih =>
    cases ls with
    | nil =>
      rw [show joinNl [l] = l from rfl, rtrimLines_cons,
        show rtrimLines ([] : List (List Char)) = [] from rfl]
      by_cases hws : lineWS l = true
      · rw [if_pos hws, show joinNl [] = [] from rfl,
          rtrim_eq_nil_iff.mpr (lineWS_true_iff.mp hws)]
      · rw [if_neg hws]
        rfl
    | cons m ls2 =>
      rw [joinNl_cons l (by simp), rtrim_append, rtrim_nl_cons, rtrimLines_cons]
      cases hB : rtrimLines (m :: ls2) with
      | nil =>
        have hz : rtrim (joinNl (m :: ls2)) = [] := by
          rw [ih, hB]
          rfl
        rw [hz, if_pos rfl, if_pos rfl]
        by_cases hws : lineWS l = true
        · rw [if_pos hws, show joinNl [] = [] from rfl,
            rtrim_eq_nil_iff.mpr (lineWS_true_iff.mp hws)]
        · rw [if_neg hws]
          rfl
      | cons l2 ls2b =>
        have hz : rtrim (joinNl (m :: ls2)) ≠ [] := by
          rw [ih, hB]
          exact joinNl_ne_nil _ (List.cons_ne_nil _ _)
            (fun z hz => rtrimLines_last_ne_nil (hB ▸ hz))
        rw [if_neg hz, if_neg (by simp [hz])]
        rw [joinNl_cons l (List.cons_ne_nil _ _), ih, hB]

theorem ltrim_joinNl_cons (l : List Char) (ls : List (List Char))
    (h : lineWS l = false) :
    ltrim (joinNl (l :: ls)) = joinNl (ltrim l :: ls) := by
  have hnw : ¬ ∀ c ∈ l, isPySpace c = true := lineWS_false_iff.mp h
  cases ls with
  | nil => rfl
  | cons m ls2 =>
    rw [joinNl_cons l (by simp), ltrim_append_not_ws l _ hnw,
      ← joinNl_cons (ltrim l) (by simp)]

theorem ltrim_head_not_ws : ∀ (s : List Char) (c : Char) (t : List Char),
    ltrim s = c :: t → isPySpace c = false := by
  intro s
  induction s with
  | nil =>
    intro c t h
    simp [ltrim] at h
  | cons a s2 ih =>
    intro c t h
    rw [ltrim, List.dropWhile_cons] at h
    by_cases ha : isPySpace a = true
    · rw [if_pos ha] at h
      exact ih c t h
    · rw [if_neg ha] at h
      obtain ⟨rfl, -⟩ := List.cons.injEq .. |>.mp h
      exact Bool.not_eq_true _ |>.mp ha

theorem ltrim_rtrim_ltrim (s : List Char) :
    ltrim (rtrim (ltrim s)) = rtrim (ltrim s) := by
  cases h : rtrim (ltrim s) with
  | nil => rfl
  | cons c t =>
    obtain ⟨u, hu⟩ := List.rdropWhile_prefix isPySpace (ltrim s)
    rw [show List.rdropWhile isPySpace (ltrim s) = rtrim (ltrim s) from rfl, h] at hu
    have hc : isPySpace c = false :=
      ltrim_head_not_ws s c (t ++ u) (by rw [← hu]; rfl)
    rw [ltrim, List.dropWhile_cons, if_neg (by simp [hc])]

theorem pyStrip_idem (s : List Char) : pyStrip (pyStrip s) = pyStrip s := by
  unfold pyStrip
  rw [ltrim_rtrim_ltrim]
  exact List.rdropWhile_idempotent isPySpace (ltrim s)

theorem mem_ltrim {c : Char} {s : List Char} (h : c ∈ ltrim s) : c ∈ s :=
  (List.dropWhile_suffix isPySpace).subset h

theorem mem_rtrim {c : Char} {s : List Char} (h : c ∈ rtrim s) : c ∈ s :=
  ( List.rdropWhile_prefix isPySpace s).subset h

/-! ## Lemmas: the capture loop -/

theorem scanLines_cons (l : List Char) (ls : List (List Char)) (b : Bool) :
    scanLines (l :: ls) b =
      (if b || isTrigger l then
        (if isStop l then [l] else l :: scanLines ls true)
      else scanLines ls false) := rfl

theorem scanLines_true_eq_specTake : ∀ L, scanLines L true = specTake L := by
  intro L
  induction L with
  | nil => rfl
  | cons l ls ih =>
    rw [scanLines_cons, specTake, Bool.true_or, if_pos rfl, ih]

theorem scanLines_false_eq_amendedScan : ∀ L, scanLines L false = amendedScan L := by
  intro L
  induction L with
  | nil => rfl
  | cons l ls ih =>
    rw [scanLines_cons, amendedScan, Bool.false_or, scanLines_true_eq_specTake]
    by_cases h : isTrigger l = true
    · rw [if_pos h, if_pos h]
    · rw [if_neg h, if_neg h, ih]

theorem scanLines_mem : ∀ (L : List (List Char)) (b : Bool) (l : List Char),
    l ∈ scanLines L b → l ∈ L := by
  intro L
  induction L with
  | nil =>
    intro b l h
    simp [scanLines] at h
  | cons x ls ih =>
    intro b l h
    rw [scanLines_cons] at h
    by_cases hb : (b || isTrigger x) = true
    · rw [if_pos hb] at h
      by_cases hs : isStop x = true
      · rw [if_pos hs] at h
        rcases List.mem_singleton.mp h with rfl
        exact List.mem_cons_self ..
      · rw [if_neg hs] at h
        rcases List.mem_cons.mp h with rfl | h2
        · exact List.mem_cons_self ..
        · exact List.mem_cons_of_mem _ (ih true l h2)
    · rw [if_neg hb] at h
      exact List.mem_cons_of_mem _ (ih false l h)

theorem scanLines_captured : ∀ (L : List (List Char)) (b : Bool),
    Captured (scanLines L b) := by
  intro L
  induction L with
  | nil =>
    intro b
    exact Captured.nil
  | cons x ls ih =>
    intro b
    rw [scanLines_cons]
    by_cases hb : (b || isTrigger x) = true
    · rw [if_pos hb]
      by_cases hs : isStop x = true
      · rw [if_pos hs]
        exact Captured.single x
      · rw [if_neg hs]
        cases h2 : scanLines ls true with
        | nil => exact Captured.single x
        | cons m ms =>
          exact Captured.cons x (m :: ms) (Bool.not_eq_true _ |>.mp hs)
            (h2 ▸ ih true) (List.cons_ne_nil _ _)
    · rw [if_neg hb]
      exact ih false

theorem scanLines_head_trigger : ∀ (L : List (List Char)) (l : List Char)
    (S : List (List Char)), scanLines L false = l :: S → isTrigger l = true := by
  intro L
  induction L with
  | nil =>
    intro l S h
    exact List.noConfusion h
  | cons x ls ih =>
    intro l S h
    rw [scanLines_cons, Bool.false_or] at h
    by_cases hb : isTrigger x = true
    · rw [if_pos hb] at h
      by_cases hs : isStop x = true
      · rw [if_pos hs] at h
        obtain ⟨rfl, -⟩ := List.cons.injEq .. |>.mp h
        exact hb
      · rw [if_neg hs] at h
        obtain ⟨rfl, -⟩ := List.cons.injEq .. |>.mp h
        exact hb
    · rw [if_neg hb] at h
      exact ih l S h

theorem scanLines_true_full : ∀ {S : List (List Char)}, Captured S →
    scanLines S true = S := by
  intro S h
  induction h with
  | nil => rfl
  | single l =>
    rw [scanLines_cons, Bool.true_or, if_pos rfl]
    by_cases hs : isStop l = true
    · rw [if_pos hs]
    · rw [if_neg hs]
      rfl
  | cons l t hstop ht htne ih =>
    rw [scanLines_cons, Bool.true_or, if_pos rfl, if_neg (by simp [hstop]), ih]

theorem scanLines_full (S : List (List Char)) (hcap : Captured S)
    (hhead : ∀ l s2, S = l :: s2 → isTrigger l = true) :
    scanLines S false = S := by
  cases hcap with
  | nil => rfl
  | single l =>
    rw [scanLines_cons, Bool.false_or, if_pos (hhead l [] rfl)]
    by_cases hs : isStop l = true
    · rw [if_pos hs]
    · rw [if_neg hs]
      rfl
  | cons l t hstop ht htne =>
    rw [scanLines_cons, Bool.false_or, if_pos (hhead l t rfl),
      if_neg (by simp [hstop]), scanLines_true_full ht]

/-! ## The structure of the extractor's output -/

theorem extract_struct (a : List Char) :
    extract_limitations_scope a = [] ∨
    (∃ t T2, splitlines (extract_limitations_scope a) = t :: T2 ∧
      isTrigger t = true ∧ Captured (t :: T2) ∧
      joinNl (t :: T2) = extract_limitations_scope a ∧
      pyStrip (extract_limitations_scope a) = extract_limitations_scope a) := by
  cases hS : scanLines (splitlines a) false with
  | nil =>
    left
    show pyStrip (joinNl (scanLines (splitlines a) false)) = []
    rw [hS]
    rfl
  | cons l0 rest =>
    right
    have htrig : isTrigger l0 = true := scanLines_head_trigger _ _ _ hS
    have hcap : Captured (l0 :: rest) := hS ▸ scanLines_captured (splitlines a) false
    have hbfS : ∀ l ∈ l0 :: rest, ∀ c ∈ l, isLineBreak c = false := by
      intro l hl c hc
      exact splitlines_no_break a l (scanLines_mem _ _ _ (hS ▸ hl)) c hc
    have htrig2 : isTrigger (ltrim l0) = true := isTrigger_ltrim htrig
    have hlws : lineWS l0 = false := by
      rw [lineWS_false_iff]
      intro hall
      rw [isTrigger_not_all_ws hall] at htrig
      exact Bool.noConfusion htrig
    have hltws : lineWS (ltrim l0) = false := by
      rw [lineWS_false_iff]
      intro hall
      rw [isTrigger_not_all_ws hall] at htrig2
      exact Bool.noConfusion htrig2
    have hoT : extract_limitations_scope a = joinNl (rtrimLines (ltrim l0 :: rest)) := by
      show pyStrip (joinNl (scanLines (splitlines a) false)) = _
      rw [hS]
      unfold pyStrip
      rw [ltrim_joinNl_cons l0 rest hlws, rtrim_joinNl]
    have hcapT0 : Captured (ltrim l0 :: rest) := by
      cases hcap with
      | single _ => exact Captured.single _
      | cons _ _ hstop ht htne =>
        exact Captured.cons (ltrim l0) rest (isStop_ltrim_false hstop) ht htne
    have hTbf : ∀ l ∈ rtrimLines (ltrim l0 :: rest), ∀ c ∈ l, isLineBreak c = false := by
      intro l hl c hc
      obtain ⟨x, hx, hxy⟩ := rtrimLines_mem hl
      have hcx : c ∈ x := by
        rcases hxy with rfl | rfl
        · exact hc
        · exact mem_rtrim hc
      rcases List.mem_cons.mp hx with rfl | hx2
      · exact hbfS l0 (List.mem_cons_self ..) c (mem_ltrim hcx)
      · exact hbfS x (List.mem_cons_of_mem _ hx2) c hcx
    have hsplit : splitlines (joinNl (rtrimLines (ltrim l0 :: rest))) =
        rtrimLines (ltrim l0 :: rest) :=
      splitlines_joinNl _ hTbf (fun z hz => rtrimLines_last_ne_nil hz)
    have hstrip : pyStrip (extract_limitations_scope a) = extract_limitations_scope a := by
      have he : extract_limitations_scope a = pyStrip (joinNl (l0 :: rest)) := by
        show pyStrip (joinNl (scanLines (splitlines a) false)) = _
        rw [hS]
      rw [he]
      exact pyStrip_idem _
    cases hT : rtrimLines (ltrim l0 :: rest) with
    | nil =>
      exact absurd (rtrimLines_eq_nil_iff.mp hT (ltrim l0) (List.mem_cons_self ..)) (by simp [hltws])
    | cons t T2 =>
      refine ⟨t, T2, ?_, ?_, hT ▸ captured_rtrimLines hcapT0, ?_, hstrip⟩
      · rw [hoT, hT]
        rw [hT] at hsplit
        exact hsplit
      · have hhd : t = ltrim l0 ∨ t = rtrim (ltrim l0) := by
          rw [rtrimLines_cons] at hT
          revert hT
          cases h2 : rtrimLines rest with
          | nil =>
            by_cases hws : lineWS (ltrim l0) = true
            · rw [if_pos hws]
              intro hT
              exact List.noConfusion hT
            · rw [if_neg hws]
              intro hT
              obtain ⟨h3, -⟩ := List.cons.injEq .. |>.mp hT
              exact Or.inr h3.symm
          | cons l2 ls2 =>
            intro hT
            obtain ⟨h3, -⟩ := List.cons.injEq .. |>.mp hT
            exact Or.inl h3.symm
        rcases hhd with rfl | rfl
        · exact htrig2
        · exact isTrigger_rtrim htrig2
      · rw [hoT, hT]

theorem joinNl_head_within (t : List Char) (T2 : List (List Char)) :
    t <:+: joinNl (t :: T2) := by
  cases T2 with
  | nil => exact List.infix_rfl
  | cons m ms =>
    rw [joinNl_cons t (by simp)]
    exact ⟨[], '\n' :: joinNl (m :: ms), by simp⟩

/-- C4: the Limitation Extractor is idempotent: applied to its own output it
returns that output unchanged when the output still contains a trigger
keyword, and the empty string otherwise. -/
theorem extract_limitations_scope_idempotent (a : List Char) :
    extract_limitations_scope (extract_limitations_scope a) =
      (if isTrigger (extract_limitations_scope a) = true
       then extract_limitations_scope a else []) := by
  rcases extract_struct a with h | ⟨t, T2, hsp, htr, hcap, hjoin, hstrip⟩
  · rw [h, if_neg (by decide)]
    rfl
  · have htro : isTrigger (extract_limitations_scope a) = true := by
      apply isTrigger_mono _ htr
      rw [← hjoin]
      exact joinNl_head_within t T2
    rw [if_pos htro]
    show pyStrip (joinNl (scanLines (splitlines (extract_limitations_scope a)) false)) = _
    rw [hsp, scanLines_full _ hcap (by
      intro l s2 he
      obtain ⟨rfl, -⟩ := List.cons.injEq .. |>.mp he.symm
      exact htr), hjoin, hstrip]

/-- C9: whenever the extractor's result is non-empty, its first line contains
a trigger keyword. -/
theorem extract_limitations_scope_head_trigger (a : List Char)
    (h : extract_limitations_scope a ≠ []) :
    isTrigger ((splitlines (extract_limitations_scope a)).headD []) = true := by
  rcases extract_struct a with h0 | ⟨t, T2, hsp, htr, -, -, -⟩
  · exact absurd h0 h
  · rw [hsp]
    exact htr

/-- Witness for C9 at a concrete analysis string. -/
theorem extract_limitations_scope_head_trigger_witness :
    extract_limitations_scope "Limitations: small sample\nConclusion: end".data ≠ [] ∧
      isTrigger ((splitlines (extract_limitations_scope
        "Limitations: small sample\nConclusion: end".data)).headD []) = true :=
  ⟨by decide, extract_limitations_scope_head_trigger _ (by decide)⟩

/-- C3 (counterexample): on a trigger line that itself contains a stop word,
the code stops at the trigger line, while the specification's description
("stops at the first *subsequent* stop line") keeps capturing. -/
theorem extract_limitations_scope_claim_counterexample :
    extract_limitations_scope "scope of applications\nextra".data ≠
      extract_claim "scope of applications\nextra".data := by
  decide

/-- C3 (amended): the extractor behaves exactly as described once the
stop-word check is applied to every captured line, the trigger line
included. -/
theorem extract_limitations_scope_eq_amended (a : List Char) :
    extract_limitations_scope a = extract_amended a := by
  unfold extract_limitations_scope extract_amended
  rw [scanLines_false_eq_amendedScan]

/-! ## `search_core_papers` and the `/analyze_papers` handler -/

theorem search_ok_of_ne_empty (env : Env) (query : String) (limit : Int)
    (sort : String) (hq : query ≠ "") :
    ∃ ps, search_core_papers env query limit sort = Except.ok ps := by
  unfold search_core_papers
  rw [if_neg hq]
  cases env.coreSearch with
  | ok ps => exact ⟨ps, rfl⟩
  | error _ => exact ⟨[], rfl⟩

/-- C2: the empty query fails with the invalid-argument error before the
network request (the result is the same for every environment, i.e. it does
not depend on the network), and every non-empty query returns normally. -/
theorem search_core_papers_empty_query (env : Env) (query : String)
    (limit : Int) (sort : String) :
    (query = "" →
      search_core_papers env query limit sort =
        Except.error "Search query cannot be empty" ∧
      ∀ env2 : Env, search_core_papers env2 query limit sort =
        search_core_papers env query limit sort) ∧
    (query ≠ "" →
      ∃ ps, search_core_papers env query limit sort = Except.ok ps) := by
  constructor
  · intro hq
    subst hq
    exact ⟨rfl, fun _ => rfl⟩
  · intro hq
    exact search_ok_of_ne_empty env query limit sort hq

/-- Witness for C2: concrete empty and non-empty queries. -/
theorem search_core_papers_empty_query_witness :
    (search_core_papers envA "" 10 "relevance" =
        Except.error "Search query cannot be empty" ∧
      ∀ env2 : Env, search_core_papers env2 "" 10 "relevance" =
        search_core_papers envA "" 10 "relevance") ∧
    (∃ ps, search_core_papers envA "ai" 10 "relevance" = Except.ok ps) :=
  ⟨(search_core_papers_empty_query envA "" 10 "relevance").1 rfl,
   (search_core_papers_empty_query envA "ai" 10 "relevance").2 (by decide)⟩

/-- C1 (counterexample): a body without a `topic` field makes the
`/analyze_papers` handler propagate the `ValueError` raised by
`search_core_papers` — the handler does not return normally. -/
theorem analyze_papers_empty_topic_raises :
    analyze_papers envA ⟨none, none⟩ =
      Except.error "Search query cannot be empty" := rfl

/-- C1 (amended): `/analyze_papers` returns normally for every body whose
topic is a non-empty string; for a missing or empty topic the
invalid-argument exception of the paper search propagates out of the
handler uncaught. -/
theorem analyze_papers_amended (env : Env) (body : APBody) :
    (body.topic.getD "" = "" →
      analyze_papers env body = Except.error "Search query cannot be empty") ∧
    (body.topic.getD "" ≠ "" →
      ∃ out, analyze_papers env body = Except.ok out) := by
  constructor
  · intro hq
    simp [analyze_papers, search_core_papers, hq]
  · intro hq
    obtain ⟨ps, hps⟩ := search_ok_of_ne_empty env (body.topic.getD "")
      (body.num_papers.getD 3) "relevance" hq
    simp only [analyze_papers, hps]
    exact ⟨_, rfl⟩

/-- Witness for C1's amended claim at a concrete body. -/
theorem analyze_papers_amended_witness :
    (analyze_papers envA ⟨some "", none⟩ =
      Except.error "Search query cannot be empty") ∧
    (∃ out, analyze_papers envA ⟨some "ai", some 2⟩ = Except.ok out) :=
  ⟨(analyze_papers_amended envA ⟨some "", none⟩).1 rfl,
   (analyze_papers_amended envA ⟨some "ai", some 2⟩).2 (by decide)⟩

/-! ## `/generate_ideas`: numbered items beat bullets -/

/-- C5: when the numbered pattern matches, its items are returned and the
bulleted pattern plays no role; bullets are extracted only when no numbered
item matches. -/
theorem parse_ideas_prefers_numbered :
    (∀ t : List Char, findallNumbered t ≠ [] → findallBullets t ≠ [] →
      parse_ideas t = (findallNumbered t).map pyStrip) ∧
    (∀ t : List Char, findallNumbered t = [] →
      parse_ideas t = (findallBullets t).map pyStrip) := by
  constructor
  · intro t hn _
    simp only [parse_ideas]
    rw [if_neg (by simpa [List.isEmpty_iff] using hn)]
  · intro t hn
    simp only [parse_ideas]
    rw [if_pos (by simpa [List.isEmpty_iff] using hn)]

/-- Witness for C5 on a text containing both a numbered item and a bullet. -/
theorem parse_ideas_prefers_numbered_witness :
    findallNumbered "1. foo\n- bar".data ≠ [] ∧
    findallBullets "1. foo\n- bar".data ≠ [] ∧
    parse_ideas "1. foo\n- bar".data =
      (findallNumbered "1. foo\n- bar".data).map pyStrip :=
  ⟨by decide, by decide,
   parse_ideas_prefers_numbered.1 _ (by decide) (by decide)⟩

/-! ## `process_papers`: zero search results -/

/-- C7: when the paper search returns no results, the transcript contains the
no-papers message and neither the Text Analyzer nor the Idea Generator is
ever invoked. -/
theorem process_papers_no_results (env : Env) (query prompt sort : String)
    (np ni wl : Int)
    (h : search_core_papers env query np sort = Except.ok []) :
    containsSub noPapersMsg.data (transcriptOf
        (process_papers env query prompt sort np ni wl)).data = true ∧
    (process_papers env query prompt sort np ni wl).gcalls = [] ∧
    (process_papers env query prompt sort np ni wl).icalls = [] := by
  have hp : process_papers env query prompt sort np ni wl =
      ⟨[noPapersMsg], [], [], []⟩ := by
    unfold process_papers
    rw [h]
    rfl
  rw [hp]
  refine ⟨?_, rfl, rfl⟩
  exact (containsSub_iff _ _).mpr List.infix_rfl

/-- Witness for C7 in a fully degraded environment. -/
theorem process_papers_no_results_witness :
    containsSub noPapersMsg.data (transcriptOf
        (process_papers envA "ai" "P" "relevance" 10 10 250)).data = true ∧
    (process_papers envA "ai" "P" "relevance" 10 10 250).gcalls = [] ∧
    (process_papers envA "ai" "P" "relevance" 10 10 250).icalls = [] :=
  process_papers_no_results envA "ai" "P" "relevance" 10 10 250 rfl

/-! ## `process_papers`: a paper without text is skipped, the batch goes on -/

theorem paperLoop_cons (env : Env) (prompt : String) (N : Int) (idx : Nat)
    (p : Paper) (ps : List Paper) :
    paperLoop env prompt N idx (p :: ps) =
      ⟨(paperStep env prompt N idx p).lines ++ (paperLoop env prompt N (idx + 1) ps).lines,
       (paperStep env prompt N idx p).lims ++ (paperLoop env prompt N (idx + 1) ps).lims,
       (paperStep env prompt N idx p).gcalls ++ (paperLoop env prompt N (idx + 1) ps).gcalls⟩ := rfl

theorem paperLoop_append (env : Env) (prompt : String) (N : Int) :
    ∀ (xs ys : List Paper) (idx : Nat),
      paperLoop env prompt N idx (xs ++ ys) =
        ⟨(paperLoop env prompt N idx xs).lines ++
           (paperLoop env prompt N (idx + xs.length) ys).lines,
         (paperLoop env prompt N idx xs).lims ++
           (paperLoop env prompt N (idx + xs.length) ys).lims,
         (paperLoop env prompt N idx xs).gcalls ++
           (paperLoop env prompt N (idx + xs.length) ys).gcalls⟩ := by
  intro xs
  induction xs with
  | nil =>
    intro ys idx
    simp [paperLoop]
  | cons q qs ih =>
    intro ys idx
    rw [List.cons_append, paperLoop_cons, paperLoop_cons, ih ys (idx + 1)]
    have harith : idx + 1 + qs.length = idx + (q :: qs).length := by
      simp
      omega
    rw [harith]
    simp [List.append_assoc]

/-- C8: a paper whose full text is empty or absent and which has no download
URL gets the skip notice appended and contributes no limitation excerpt and
no Gemini call, while the papers before and after it are processed normally
in source order. -/
theorem process_papers_skips_textless (env : Env) (query prompt sort : String)
    (ni wl : Int) (pre post : List Paper) (p : Paper)
    (hft : p.fullText = none ∨ p.fullText = some "")
    (hdl : p.downloadUrl = none ∨ p.downloadUrl = some "")
    (hsearch : search_core_papers env query ((pre ++ p :: post).length : Int) sort =
      Except.ok (pre ++ p :: post)) :
    paperStep env prompt ((pre ++ p :: post).length : Int) pre.length p =
      ⟨paperHeader ((pre ++ p :: post).length : Int) pre.length p ++ [skipMsg], [], []⟩ ∧
    process_papers env query prompt sort ((pre ++ p :: post).length : Int) ni wl =
      ⟨("\nFound " ++ toString (pre ++ p :: post).length ++
          " relevant papers. Analyzing top " ++
          toString ((pre ++ p :: post).length : Int) ++
          " (sorted by " ++ sort ++ ")...") ::
        ((paperLoop env prompt ((pre ++ p :: post).length : Int) 0 pre).lines ++
          (paperHeader ((pre ++ p :: post).length : Int) pre.length p ++ [skipMsg]) ++
          (paperLoop env prompt ((pre ++ p :: post).length : Int) (pre.length + 1) post).lines ++
          (ideaTail env query ni wl
            ((paperLoop env prompt ((pre ++ p :: post).length : Int) 0 pre).lims ++
             (paperLoop env prompt ((pre ++ p :: post).length : Int) (pre.length + 1) post).lims)).1),
       (paperLoop env prompt ((pre ++ p :: post).length : Int) 0 pre).lims ++
         (paperLoop env prompt ((pre ++ p :: post).length : Int) (pre.length + 1) post).lims,
       (paperLoop env prompt ((pre ++ p :: post).length : Int) 0 pre).gcalls ++
         (paperLoop env prompt ((pre ++ p :: post).length : Int) (pre.length + 1) post).gcalls,
       (ideaTail env query ni wl
         ((paperLoop env prompt ((pre ++ p :: post).length : Int) 0 pre).lims ++
          (paperLoop env prompt ((pre ++ p :: post).length : Int) (pre.length + 1) post).lims)).2⟩ := by
  have htext : resolveText env.pdf p = "" := by
    unfold resolveText
    rcases hft with hft | hft <;> rcases hdl with hdl | hdl <;> simp [hft, hdl]
  have hstepEq : paperStep env prompt ((pre ++ p :: post).length : Int) pre.length p =
      ⟨paperHeader ((pre ++ p :: post).length : Int) pre.length p ++ [skipMsg], [], []⟩ := by
    simp only [paperStep, htext]
    simp
  refine ⟨hstepEq, ?_⟩
  unfold process_papers
  rw [hsearch]
  dsimp only
  rw [if_neg (show ¬(pre ++ p :: post = []) by simp)]
  have hslice : pySlice ((pre ++ p :: post).length : Int) (pre ++ p :: post) =
      pre ++ p :: post := by
    unfold pySlice
    rw [if_pos (by exact_mod_cast Nat.zero_le _)]
    rw [Int.toNat_ofNat, List.take_length]
  rw [hslice]
  rw [paperLoop_append env prompt _ pre (p :: post) 0, paperLoop_cons]
  rw [Nat.zero_add]
  rw [hstepEq]
  simp [List.append_assoc]

/-- Witness for C8: one textless paper, no papers before or after it. -/
theorem process_papers_skips_textless_witness :
    paperStep envB "P" 1 0 pX = ⟨paperHeader 1 0 pX ++ [skipMsg], [], []⟩ ∧
    process_papers envB "q" "P" "relevance" 1 3 250 =
      ⟨("\nFound " ++ toString (1 : Nat) ++ " relevant papers. Analyzing top " ++
          toString (1 : Int) ++ " (sorted by " ++ "relevance" ++ ")...") ::
        ((paperLoop envB "P" 1 0 []).lines ++ (paperHeader 1 0 pX ++ [skipMsg]) ++
          (paperLoop envB "P" 1 1 []).lines ++
          (ideaTail envB "q" 3 250 ((paperLoop envB "P" 1 0 []).lims ++
            (paperLoop envB "P" 1 1 []).lims)).1),
       (paperLoop envB "P" 1 0 []).lims ++ (paperLoop envB "P" 1 1 []).lims,
       (paperLoop envB "P" 1 0 []).gcalls ++ (paperLoop envB "P" 1 1 []).gcalls,
       (ideaTail envB "q" 3 250 ((paperLoop envB "P" 1 0 []).lims ++
         (paperLoop envB "P" 1 1 []).lims)).2⟩ :=
  process_papers_skips_textless envB "q" "P" "relevance" 3 250 [] [] pX
    (Or.inr rfl) (Or.inl rfl) rfl

/-! ## `/random_ideas`: the fallback sample -/

theorem sampleAux_succ_cons (rng : Nat → Nat) (k : Nat) (p : α) (ps : List α)
    (step : Nat) :
    sampleAux rng (k + 1) (p :: ps) step =
      (p :: ps).get ⟨rng step % (p :: ps).length, Nat.mod_lt _ (Nat.succ_pos ps.length)⟩ ::
        sampleAux rng k ((p :: ps).eraseIdx (rng step % (p :: ps).length)) (step + 1) := rfl

theorem sampleAux_length (rng : Nat → Nat) :
    ∀ (k : Nat) (pop : List α) (step : Nat), k ≤ pop.length →
      (sampleAux rng k pop step).length = k := by
  intro k
  induction k with
  | zero =>
    intro pop step _
    rfl
  | succ k2 ih =>
    intro pop step h
    cases pop with
    | nil => simp at h
    | cons p ps =>
      rw [sampleAux_succ_cons, List.length_cons,
        ih _ (step + 1) (by
          rw [List.length_eraseIdx_of_lt (Nat.mod_lt _ (by simp))]
          simp at h ⊢
          omega)]

theorem sampleAux_mem (rng : Nat → Nat) :
    ∀ (k : Nat) (pop : List α) (step : Nat) (x : α),
      x ∈ sampleAux rng k pop step → x ∈ pop := by
  intro k
  induction k with
  | zero =>
    intro pop step x h
    simp [sampleAux] at h
  | succ k2 ih =>
    intro pop step x h
    cases pop with
    | nil => simp [sampleAux] at h
    | cons p ps =>
      rw [sampleAux_succ_cons] at h
      rcases List.mem_cons.mp h with rfl | h2
      · exact List.get_mem ..
      · exact (List.eraseIdx_sublist _ _).subset (ih _ _ x h2)

theorem get_not_mem_eraseIdx : ∀ (l : List α) (i : Nat) (h : i < l.length),
    l.Nodup → l.get ⟨i, h⟩ ∉ l.eraseIdx i := by
  intro l
  induction l with
  | nil =>
    intro i h
    simp at h
  | cons a as ih =>
    intro i h hnd
    cases i with
    | zero => simpa using (List.nodup_cons.mp hnd).1
    | succ j =>
      intro hmem
      rcases List.mem_cons.mp hmem with heq | hmem2
      · exact (List.nodup_cons.mp hnd).1 (heq ▸ List.get_mem as j (by simpa using h))
      · exact ih j (by simpa using h) (List.nodup_cons.mp hnd).2 hmem2

theorem sampleAux_nodup (rng : Nat → Nat) :
    ∀ (k : Nat) (pop : List α) (step : Nat), pop.Nodup →
      (sampleAux rng k pop step).Nodup := by
  intro k
  induction k with
  | zero =>
    intro pop step _
    exact List.nodup_nil
  | succ k2 ih =>
    intro pop step hnd
    cases pop with
    | nil => exact List.nodup_nil
    | cons p ps =>
      rw [sampleAux_succ_cons, List.nodup_cons]
      refine ⟨?_, ih _ _ ((List.eraseIdx_sublist _ _).nodup hnd)⟩
      intro hmem
      exact get_not_mem_eraseIdx (p :: ps) _ _ hnd (sampleAux_mem rng k2 _ _ _ hmem)

theorem perm_get_cons_eraseIdx : ∀ (l : List α) (i : Nat) (h : i < l.length),
    List.Perm l (l.get ⟨i, h⟩ :: l.eraseIdx i) := by
  intro l
  induction l with
  | nil =>
    intro i h
    simp at h
  | cons a as ih =>
    intro i h
    cases i with
    | zero => exact List.Perm.refl _
    | succ j =>
      have hj : j < as.length := by simpa using h
      exact List.Perm.trans ((ih j hj).cons a) (List.Perm.swap _ _ _)

theorem sampleAux_perm (rng : Nat → Nat) :
    ∀ (k : Nat) (pop : List α) (step : Nat), k = pop.length →
      List.Perm (sampleAux rng k pop step) pop := by
  intro k
  induction k with
  | zero =>
    intro pop step h
    rw [show pop = [] from List.length_eq_zero.mp h.symm]
    exact List.Perm.refl _
  | succ k2 ih =>
    intro pop step h
    cases pop with
    | nil => simp at h
    | cons p ps =>
      rw [sampleAux_succ_cons]
      refine List.Perm.trans (List.Perm.cons _ (ih _ (step + 1) ?_))
        (perm_get_cons_eraseIdx (p :: ps) _ _).symm
      rw [List.length_eraseIdx_of_lt (Nat.mod_lt _ (by simp))]
      simp at h ⊢
      omega

theorem random_ideas_no_credentials (env : RandEnv) (rng : Nat → Nat)
    (count : Int) :
    random_ideas env "" "" rng count =
      randomSample rng fallback_ideas (min count 5) := by
  unfold random_ideas fetch_trending_papers_from_core
  simp

/-- C6: without credentials and for `0 < count ≤ 5`, the handler returns
exactly `count` pairwise-distinct ideas drawn from the fixed fallback set. -/
theorem random_ideas_no_credentials_count_le_five (env : RandEnv)
    (rng : Nat → Nat) (count : Int) (h1 : 0 < count) (h2 : count ≤ 5) :
    ∃ l, random_ideas env "" "" rng count = Except.ok l ∧
      l.length = count.toNat ∧ l.Nodup ∧ ∀ x ∈ l, x ∈ fallback_ideas := by
  rw [random_ideas_no_credentials, min_eq_left h2]
  unfold randomSample
  rw [if_neg (by
    rw [show (fallback_ideas.length : Int) = 5 from rfl]
    omega)]
  refine ⟨_, rfl, ?_, ?_, ?_⟩
  · exact sampleAux_length rng count.toNat fallback_ideas 0 (by
      rw [show fallback_ideas.length = 5 from rfl]
      omega)
  · exact sampleAux_nodup rng _ _ _ (by decide)
  · intro x hx
    exact sampleAux_mem rng _ _ _ x hx

/-- Witness for C6 at `count = 3`. -/
theorem random_ideas_no_credentials_count_le_five_witness :
    (0 : Int) < 3 ∧ (3 : Int) ≤ 5 ∧
    (∃ l, random_ideas renvA "" "" (fun _ => 0) 3 = Except.ok l ∧
      l.length = (3 : Int).toNat ∧ l.Nodup ∧ ∀ x ∈ l, x ∈ fallback_ideas) :=
  ⟨by decide, by decide,
   random_ideas_no_credentials_count_le_five renvA (fun _ => 0) 3 (by decide) (by decide)⟩

/-- C10: without credentials and for `count > 5`, the handler returns
exactly five ideas — the whole fallback set — rather than `count` ideas. -/
theorem random_ideas_no_credentials_count_gt_five (env : RandEnv)
    (rng : Nat → Nat) (count : Int) (h : 5 < count) :
    ∃ l, random_ideas env "" "" rng count = Except.ok l ∧
      l.length = 5 ∧ ∀ x ∈ fallback_ideas, x ∈ l := by
  rw [random_ideas_no_credentials, min_eq_right (le_of_lt h)]
  unfold randomSample
  rw [if_neg (by
    rw [show (fallback_ideas.length : Int) = 5 from rfl]
    omega)]
  have hperm := sampleAux_perm rng (5 : Int).toNat fallback_ideas 0 rfl
  refine ⟨_, rfl, ?_, ?_⟩
  · rw [hperm.length_eq]
    rfl
  · intro x hx
    exact hperm.mem_iff.mpr hx

/-- Witness for C10 at `count = 7`. -/
theorem random_ideas_no_credentials_count_gt_five_witness :
    (5 : Int) < 7 ∧
    (∃ l, random_ideas renvA "" "" (fun _ => 0) 7 = Except.ok l ∧
      l.length = 5 ∧ ∀ x ∈ fallback_ideas, x ∈ l) :=
  ⟨by decide,
   random_ideas_no_credentials_count_gt_five renvA (fun _ => 0) 7 (by decide)⟩

end ResearchAI
